import Mathlib

/-!
Shallow embedding of the hash-function benchmark in `main.py`
(class `HashFunctionTester`).

Modelling conventions:
* Dataset elements have an abstract type `α` (strings, tuples, numbers …).
* A Python hash function that may raise on an element is `α → Option ℤ`
  (`none` = the call raised; Python ints are unbounded, hence `ℤ`).
* `time.time()` differences are supplied by an external `clock` argument
  (wall-clock time is an input of the run, not something the code computes).
* `scipy.stats.chisquare` returns the chi-square statistic (an exact rational
  function of the counts, embedded directly) together with a p-value computed
  from the chi-square distribution in floating point; the p-value computation
  is kept abstract as a parameter `pv`.
* `self.results` (a dict of dicts) is an association list in insertion order;
  Python dict assignment `d[k] = v` is `setEntry`.
* A `try/except` block that catches an exception and `continue`s is `Option`:
  `none` = an exception was raised inside the block and caught.
-/

/-- Result record stored in `self.results[filename][func_name]`
(main.py lines 114-122). -/
structure TestResult where
  time : ℚ
  collisions : ℕ
  collision_rate : ℚ
  unique_hashes : ℕ
  chi2 : ℚ
  p_value : ℚ
  hash_counts : List (ℤ × ℕ)
deriving DecidableEq

/-- Key list of a Python `defaultdict(int)` filled by iterating over a list:
a value is appended to the key list the first time it is seen.  `seen`
accumulates the keys already present. -/
def dictKeysAux : List ℤ → List ℤ → List ℤ
  | _, [] => []
  | seen, h :: t => if h ∈ seen then dictKeysAux seen t else h :: dictKeysAux (h :: seen) t

/-- Keys of the `defaultdict(int)` built from `hashes`: each distinct value,
in first-occurrence (Python dict insertion) order. -/
def dictKeys (l : List ℤ) : List ℤ := dictKeysAux [] l

/-- The frequency table `hash_counts` built in `test_functions`
(main.py lines 104-106): each distinct hash code paired with its
number of occurrences, in insertion order. -/
def hash_counts (hashes : List ℤ) : List (ℤ × ℕ) :=
  (dictKeys hashes).map (fun h => (h, hashes.count h))

/-- Python `sum(cnt - 1 for cnt in hash_counts.values() if cnt > 1)`
(main.py line 108). -/
def collisionCount (hashes : List ℤ) : ℕ :=
  ((((hash_counts hashes).map Prod.snd).filter (fun cnt => 1 < cnt)).map
    (fun cnt => cnt - 1)).sum

/-- Chi-square statistic of `scipy.stats.chisquare(counts)` with the default
expectation: every category expected to receive the mean `sum counts / len counts`. -/
def chi2stat (expected : ℚ) (counts : List ℕ) : ℚ :=
  (counts.map (fun o => ((o : ℚ) - expected) ^ 2 / expected)).sum

/-- Embedding of `HashFunctionTester.test_uniformity` (main.py lines 130-135):
`expected = sum(counts) / len(counts) if counts else 0`; if `expected == 0`
return `(0, 0)`, else return `chisquare(counts)`.  `pv` abstracts scipy's
floating-point p-value computation. -/
def test_uniformity (pv : List ℕ → ℚ) (counts : List ℕ) : ℚ × ℚ :=
  let expected : ℚ :=
    if counts.isEmpty then 0 else (counts.sum : ℚ) / (counts.length : ℚ)
  if expected = 0 then (0, 0)
  else (chi2stat expected counts, pv counts)

/-- Body of the pair-level `try` block of `test_functions` for one
(dataset, function) pair (main.py lines 93-122).  Element-level hashing
failures are caught inside and replaced by the sentinel code `0`
(lines 97-101), so they do not escape; the division
`collision_rate = collisions / len(data)` raises `ZeroDivisionError` on an
empty dataset, which escapes to the pair-level handler: result `none`.
`elapsed` is the wall-clock duration `time.time() - start_time`. -/
def computePair {α : Type} (pv : List ℕ → ℚ) (elapsed : ℚ)
    (data : List α) (f : α → Option ℤ) : Option TestResult :=
  let hashes := data.map (fun x => (f x).getD 0)
  if data.length = 0 then none
  else
    let tu := test_uniformity pv ((hash_counts hashes).map Prod.snd)
    some
      { time := elapsed
        collisions := collisionCount hashes
        collision_rate := (collisionCount hashes : ℚ) / (data.length : ℚ)
        unique_hashes := (hash_counts hashes).length
        chi2 := tu.1
        p_value := tu.2
        hash_counts := hash_counts hashes }

/-- Per-file inner dict `self.results[filename]` : function name ↦ result. -/
abbrev FileResults := List (String × TestResult)

/-- The outer dict `self.results` : filename ↦ per-file results. -/
abbrev ResultsMatrix := List (String × FileResults)

/-- Python dict assignment `m[k] = v` on an insertion-ordered association
list: replace the binding if the key is present, else append it. -/
def setEntry (m : ResultsMatrix) (k : String) (v : FileResults) : ResultsMatrix :=
  match m with
  | [] => [(k, v)]
  | (k', v') :: rest => if k' = k then (k, v) :: rest else (k', v') :: setEntry rest k v

/-- Python dict lookup `m[k]` on an association list. -/
def getEntry (m : ResultsMatrix) (k : String) : Option FileResults :=
  match m with
  | [] => none
  | (k', v') :: rest => if k' = k then some v' else getEntry rest k

/-- Inner loop of `test_functions` over the hash functions for one file
(main.py lines 89-128): each pair whose `try` block succeeds stores its
`TestResult` under the function's name; a pair-level failure prints and
`continue`s, storing nothing. -/
def runPairs {α : Type} (pv : List ℕ → ℚ) (clock : String → String → ℚ)
    (filename : String) (data : List α)
    (funcs : List (String × (α → Option ℤ))) : FileResults :=
  funcs.filterMap (fun p =>
    (computePair pv (clock filename p.1) data p.2).map (fun r => (p.1, r)))

/-- Embedding of `HashFunctionTester.test_functions` (main.py lines 78-128).
`st` is the incoming `self.results`.  If `self.test_data` is empty the method
raises `ValueError` (lines 80-81): the state is returned unchanged together
with the error message.  Otherwise every file gets
`self.results[filename] = {…}` filled by the inner loop, and no error. -/
def test_functions {α : Type} (pv : List ℕ → ℚ) (clock : String → String → ℚ)
    (st : ResultsMatrix) (test_data : List (String × List α))
    (funcs : List (String × (α → Option ℤ))) : ResultsMatrix × Option String :=
  if test_data.isEmpty then (st, some "Нет тестовых данных для проверки")
  else
    (test_data.foldl
      (fun m p => setEntry m p.1 (runPairs pv clock p.1 p.2 funcs)) st,
     none)

/-- Everything in a `TestResult` except the measured wall-clock time. -/
def TestResult.noTime (r : TestResult) : ℕ × ℚ × ℕ × ℚ × ℚ × List (ℤ × ℕ) :=
  (r.collisions, r.collision_rate, r.unique_hashes, r.chi2, r.p_value, r.hash_counts)

/-- A results matrix with every stored time erased. -/
def stripTimes (m : ResultsMatrix) :
    List (String × List (String × (ℕ × ℚ × ℕ × ℚ × ℚ × List (ℤ × ℕ)))) :=
  m.map (fun e => (e.1, e.2.map (fun p => (p.1, p.2.noTime))))

/-! ### Helper lemmas about the frequency table -/

theorem mem_dictKeysAux (l : List ℤ) : ∀ (seen : List ℤ) (a : ℤ),
    a ∈ dictKeysAux seen l ↔ a ∈ l ∧ a ∉ seen := by
  induction l with
  | nil => simp [dictKeysAux]
  | cons h t ih =>
    intro seen a
    by_cases hs : h ∈ seen
    · simp only [dictKeysAux, if_pos hs, ih, List.mem_cons]
      constructor
      · exact fun ⟨hat, hns⟩ => ⟨Or.inr hat, hns⟩
      · rintro ⟨hah | hat, hns⟩
        · exact absurd (hah ▸ hs) hns
        · exact ⟨hat, hns⟩
    · simp only [dictKeysAux, if_neg hs, List.mem_cons, ih]
      constructor
      · rintro (rfl | ⟨hat, hns⟩)
        · exact ⟨Or.inl rfl, hs⟩
        · exact ⟨Or.inr hat, fun hc => hns (Or.inr hc)⟩
      · rintro ⟨hah | hat, hns⟩
        · exact Or.inl hah
        · by_cases hck : a = h
          · exact Or.inl hck
          · exact Or.inr ⟨hat, by simp [hck, hns]⟩

theorem mem_dictKeys (l : List ℤ) (a : ℤ) : a ∈ dictKeys l ↔ a ∈ l := by
  simp [dictKeys, mem_dictKeysAux]

theorem nodup_dictKeysAux (l : List ℤ) : ∀ seen : List ℤ, (dictKeysAux seen l).Nodup := by
  induction l with
  | nil => simp [dictKeysAux]
  | cons h t ih =>
    intro seen
    by_cases hs : h ∈ seen
    · simpa [dictKeysAux, if_pos hs] using ih seen
    · simp only [dictKeysAux, if_neg hs, List.nodup_cons]
      exact ⟨fun hc => by simp [mem_dictKeysAux] at hc, ih _⟩

theorem nodup_dictKeys (l : List ℤ) : (dictKeys l).Nodup := nodup_dictKeysAux l []

theorem sum_counts_dictKeys (l : List ℤ) :
    ((dictKeys l).map (fun h => l.count h)).sum = l.length := by
  have hnd := nodup_dictKeys l
  have hfs : (dictKeys l).toFinset = l.toFinset := by
    ext a
    simp [mem_dictKeys]
  calc ((dictKeys l).map (fun h => l.count h)).sum
      = (dictKeys l).toFinset.sum (fun h => l.count h) :=
        (List.sum_toFinset _ hnd).symm
    _ = l.toFinset.sum (fun h => l.count h) := by rw [hfs]
    _ = (l : Multiset ℤ).toFinset.sum (fun h => (l : Multiset ℤ).count h) := by simp
    _ = Multiset.card (l : Multiset ℤ) := Multiset.toFinset_sum_count_eq _
    _ = l.length := by simp

theorem dictKeys_length_le (l : List ℤ) : (dictKeys l).length ≤ l.length :=
  (List.subperm_of_subset (nodup_dictKeys l)
    (fun a ha => (mem_dictKeys l a).mp ha)).length_le

theorem filter_map_sub_one_sum (ns : List ℕ) (h : ∀ x ∈ ns, 1 ≤ x) :
    ((ns.filter (fun cnt => 1 < cnt)).map (fun cnt => cnt - 1)).sum
      = (ns.map (fun cnt => cnt - 1)).sum := by
  induction ns with
  | nil => rfl
  | cons n t ih =>
    have hn := h n (List.mem_cons_self n t)
    have ht := fun x hx => h x (List.mem_cons_of_mem n hx)
    by_cases h1 : 1 < n
    · simp [List.filter_cons, h1, ih ht]
    · have hn1 : n = 1 := le_antisymm (Nat.not_lt.mp h1) hn
      simp [List.filter_cons, h1, hn1, ih ht]

theorem map_sub_one_sum (ns : List ℕ) (h : ∀ x ∈ ns, 1 ≤ x) :
    (ns.map (fun cnt => cnt - 1)).sum + ns.length = ns.sum := by
  induction ns with
  | nil => rfl
  | cons n t ih =>
    have hn := h n (List.mem_cons_self n t)
    have ht := ih (fun x hx => h x (List.mem_cons_of_mem n hx))
    simp only [List.map_cons, List.sum_cons, List.length_cons]
    omega

theorem counts_pos (l : List ℤ) :
    ∀ x ∈ (dictKeys l).map (fun h => l.count h), 1 ≤ x := by
  intro x hx
  obtain ⟨h, hh, rfl⟩ := List.mem_map.mp hx
  exact List.count_pos_iff.mpr ((mem_dictKeys l h).mp hh)

theorem hash_counts_snd (l : List ℤ) :
    (hash_counts l).map Prod.snd = (dictKeys l).map (fun h => l.count h) := by
  simp [hash_counts, List.map_map]

theorem collisionCount_add_length (l : List ℤ) :
    collisionCount l + (dictKeys l).length = l.length := by
  have hpos := counts_pos l
  have h1 : collisionCount l
      = (((dictKeys l).map (fun h => l.count h)).map (fun cnt => cnt - 1)).sum := by
    rw [collisionCount, hash_counts_snd, filter_map_sub_one_sum _ hpos]
  have h2 := map_sub_one_sum _ hpos
  have h3 := sum_counts_dictKeys l
  have h4 : ((dictKeys l).map (fun h => l.count h)).length = (dictKeys l).length :=
    List.length_map _ _
  omega

/-! ### Helper lemmas about one (dataset, function) pair -/

theorem computePair_nil {α : Type} (pv : List ℕ → ℚ) (t : ℚ) (f : α → Option ℤ) :
    computePair pv t ([] : List α) f = none := rfl

theorem computePair_of_ne_nil {α : Type} (pv : List ℕ → ℚ) (t : ℚ)
    (data : List α) (f : α → Option ℤ) (h : data ≠ []) :
    computePair pv t data f =
      some
        { time := t
          collisions := collisionCount (data.map fun x => (f x).getD 0)
          collision_rate :=
            (collisionCount (data.map fun x => (f x).getD 0) : ℚ) / (data.length : ℚ)
          unique_hashes := (hash_counts (data.map fun x => (f x).getD 0)).length
          chi2 :=
            (test_uniformity pv
              ((hash_counts (data.map fun x => (f x).getD 0)).map Prod.snd)).1
          p_value :=
            (test_uniformity pv
              ((hash_counts (data.map fun x => (f x).getD 0)).map Prod.snd)).2
          hash_counts := hash_counts (data.map fun x => (f x).getD 0) } := by
  unfold computePair
  rw [if_neg (fun hc => h (List.length_eq_zero.mp hc))]

theorem computePair_ne_nil {α : Type} {pv : List ℕ → ℚ} {t : ℚ}
    {data : List α} {f : α → Option ℤ} {r : TestResult}
    (h : computePair pv t data f = some r) : data ≠ [] := by
  intro hnil
  subst hnil
  simp [computePair] at h

theorem computePair_some_eq {α : Type} {pv : List ℕ → ℚ} {t : ℚ}
    {data : List α} {f : α → Option ℤ} {r : TestResult}
    (h : computePair pv t data f = some r) :
    r.collisions = collisionCount (data.map fun x => (f x).getD 0) ∧
    r.unique_hashes = (dictKeys (data.map fun x => (f x).getD 0)).length := by
  have hne := computePair_ne_nil h
  rw [computePair_of_ne_nil pv t data f hne] at h
  have hr := Option.some.inj h
  subst hr
  exact ⟨rfl, by simp [hash_counts]⟩

/-! ### Helper lemmas about the results matrix -/

theorem runPairs_nil_data {α : Type} (pv : List ℕ → ℚ) (clock : String → String → ℚ)
    (fn : String) (funcs : List (String × (α → Option ℤ))) :
    runPairs pv clock fn ([] : List α) funcs = [] := by
  simp [runPairs, computePair_nil]

theorem runPairs_filter_not_mem {α : Type} (pv : List ℕ → ℚ) (clock : String → String → ℚ)
    (fn : String) (data : List α) (funcs : List (String × (α → Option ℤ)))
    (q : String) (h : q ∉ funcs.map Prod.fst) :
    (runPairs pv clock fn data funcs).filter (fun p => p.1 = q) = [] := by
  induction funcs with
  | nil => rfl
  | cons p rest ih =>
    have hq : p.1 ≠ q := fun hc => h (by simp [hc])
    have hrest : q ∉ rest.map Prod.fst := fun hc => h (by simp [hc])
    cases hc : computePair pv (clock fn p.1) data p.2 with
    | none => simpa [runPairs, List.filterMap_cons, hc] using ih hrest
    | some r =>
      simpa [runPairs, List.filterMap_cons, hc, List.filter_cons, hq] using ih hrest

theorem runPairs_filter_some {α : Type} (pv : List ℕ → ℚ) (clock : String → String → ℚ)
    (fn : String) (data : List α) (funcs : List (String × (α → Option ℤ)))
    (name : String) (f : α → Option ℤ) (r : TestResult)
    (hnd : (funcs.map Prod.fst).Nodup) (hmem : (name, f) ∈ funcs)
    (hs : computePair pv (clock fn name) data f = some r) :
    (runPairs pv clock fn data funcs).filter (fun p => p.1 = name) = [(name, r)] := by
  induction funcs with
  | nil => cases hmem
  | cons p rest ih =>
    simp only [List.map_cons, List.nodup_cons] at hnd
    rcases List.mem_cons.mp hmem with heq | hmem'
    · subst heq
      simp only [runPairs, List.filterMap_cons, hs, Option.map_some']
      rw [List.filter_cons_of_pos (by simp)]
      have := runPairs_filter_not_mem pv clock fn data rest name hnd.1
      simpa [runPairs] using congrArg (List.cons (name, r)) this
    · have hq : p.1 ≠ name := fun hc => hnd.1 (hc ▸ (List.mem_map_of_mem Prod.fst hmem'))
      cases hc : computePair pv (clock fn p.1) data p.2 with
      | none => simpa [runPairs, List.filterMap_cons, hc] using ih hnd.2 hmem'
      | some r' =>
        simpa [runPairs, List.filterMap_cons, hc, List.filter_cons, hq]
          using ih hnd.2 hmem'

theorem runPairs_filter_none {α : Type} (pv : List ℕ → ℚ) (clock : String → String → ℚ)
    (fn : String) (data : List α) (funcs : List (String × (α → Option ℤ)))
    (name : String) (f : α → Option ℤ)
    (hnd : (funcs.map Prod.fst).Nodup) (hmem : (name, f) ∈ funcs)
    (hs : computePair pv (clock fn name) data f = none) :
    (runPairs pv clock fn data funcs).filter (fun p => p.1 = name) = [] := by
  induction funcs with
  | nil => rfl
  | cons p rest ih =>
    simp only [List.map_cons, List.nodup_cons] at hnd
    rcases List.mem_cons.mp hmem with heq | hmem'
    · subst heq
      simp only [runPairs, List.filterMap_cons, hs, Option.map_none']
      exact runPairs_filter_not_mem pv clock fn data rest name hnd.1
    · have hq : p.1 ≠ name := fun hc => hnd.1 (hc ▸ (List.mem_map_of_mem Prod.fst hmem'))
      cases hc : computePair pv (clock fn p.1) data p.2 with
      | none => simpa [runPairs, List.filterMap_cons, hc] using ih hnd.2 hmem'
      | some r' =>
        simpa [runPairs, List.filterMap_cons, hc, List.filter_cons, hq]
          using ih hnd.2 hmem'

theorem getEntry_setEntry_self (m : ResultsMatrix) (k : String) (v : FileResults) :
    getEntry (setEntry m k v) k = some v := by
  induction m with
  | nil => simp [setEntry, getEntry]
  | cons p rest ih =>
    obtain ⟨k', v'⟩ := p
    by_cases hk : k' = k
    · simp [setEntry, hk, getEntry]
    · simp [setEntry, hk, getEntry, ih]

theorem getEntry_setEntry_ne (m : ResultsMatrix) (k q : String) (v : FileResults)
    (h : q ≠ k) : getEntry (setEntry m k v) q = getEntry m q := by
  induction m with
  | nil =>
    simp only [setEntry, getEntry]
    rw [if_neg (Ne.symm h)]
  | cons p rest ih =>
    obtain ⟨k', v'⟩ := p
    by_cases hk : k' = k
    · subst hk
      simp only [setEntry, if_pos rfl, getEntry]
      rw [if_neg (Ne.symm h), if_neg (Ne.symm h)]
    · simp only [setEntry, if_neg hk, getEntry]
      by_cases hq : k' = q
      · rw [if_pos hq, if_pos hq]
      · rw [if_neg hq, if_neg hq]
        exact ih

theorem getEntry_foldl_not_mem {α : Type} (pv : List ℕ → ℚ) (clock : String → String → ℚ)
    (funcs : List (String × (α → Option ℤ))) (td : List (String × List α))
    (m : ResultsMatrix) (q : String) (h : q ∉ td.map Prod.fst) :
    getEntry (td.foldl (fun m p => setEntry m p.1 (runPairs pv clock p.1 p.2 funcs)) m) q
      = getEntry m q := by
  induction td generalizing m with
  | nil => rfl
  | cons p rest ih =>
    simp only [List.map_cons, List.mem_cons, not_or] at h
    simp only [List.foldl_cons]
    rw [ih _ h.2, getEntry_setEntry_ne _ _ _ _ h.1]

theorem getEntry_foldl_mem {α : Type} (pv : List ℕ → ℚ) (clock : String → String → ℚ)
    (funcs : List (String × (α → Option ℤ))) (td : List (String × List α))
    (m : ResultsMatrix) (fn : String) (data : List α)
    (hnd : (td.map Prod.fst).Nodup) (hmem : (fn, data) ∈ td) :
    getEntry (td.foldl (fun m p => setEntry m p.1 (runPairs pv clock p.1 p.2 funcs)) m) fn
      = some (runPairs pv clock fn data funcs) := by
  induction td generalizing m with
  | nil => cases hmem
  | cons p rest ih =>
    simp only [List.map_cons, List.nodup_cons] at hnd
    simp only [List.foldl_cons]
    rcases List.mem_cons.mp hmem with heq | hmem'
    · have hp1 : p.1 = fn := by rw [← heq]
      have hnotin : fn ∉ rest.map Prod.fst := hp1 ▸ hnd.1
      rw [getEntry_foldl_not_mem _ _ _ _ _ _ hnotin, hp1, ← heq, getEntry_setEntry_self]
    · exact ih _ hnd.2 hmem'

/-! ### Helper lemmas: the non-time fields do not depend on the clock -/

theorem computePair_noTime {α : Type} (pv : List ℕ → ℚ) (t t' : ℚ)
    (data : List α) (f : α → Option ℤ) :
    (computePair pv t data f).map TestResult.noTime
      = (computePair pv t' data f).map TestResult.noTime := by
  by_cases h : data = []
  · subst h; rfl
  · rw [computePair_of_ne_nil pv t data f h, computePair_of_ne_nil pv t' data f h]
    rfl

theorem runPairs_noTime {α : Type} (pv : List ℕ → ℚ) (c1 c2 : String → String → ℚ)
    (fn : String) (data : List α) (funcs : List (String × (α → Option ℤ))) :
    (runPairs pv c1 fn data funcs).map (fun p => (p.1, p.2.noTime))
      = (runPairs pv c2 fn data funcs).map (fun p => (p.1, p.2.noTime)) := by
  induction funcs with
  | nil => rfl
  | cons p rest ih =>
    by_cases hd : data = []
    · subst hd
      rw [runPairs_nil_data, runPairs_nil_data]
    · simp only [runPairs, List.filterMap_cons,
        computePair_of_ne_nil pv (c1 fn p.1) data p.2 hd,
        computePair_of_ne_nil pv (c2 fn p.1) data p.2 hd,
        Option.map_some', List.map_cons]
      refine congrArg₂ List.cons rfl ?_
      simpa only [runPairs] using ih

theorem stripTimes_setEntry_congr {m1 m2 : ResultsMatrix} (k : String)
    {v1 v2 : FileResults} (h : stripTimes m1 = stripTimes m2)
    (hv : v1.map (fun p => (p.1, p.2.noTime)) = v2.map (fun p => (p.1, p.2.noTime))) :
    stripTimes (setEntry m1 k v1) = stripTimes (setEntry m2 k v2) := by
  induction m1 generalizing m2 with
  | nil =>
    cases m2 with
    | nil =>
      simp only [setEntry, stripTimes, List.map_cons, List.map_nil, List.cons.injEq,
        Prod.mk.injEq]
      exact ⟨⟨trivial, hv⟩, trivial⟩
    | cons b m2t => simp [stripTimes] at h
  | cons a m1t ih =>
    obtain ⟨ak, av⟩ := a
    cases m2 with
    | nil => simp [stripTimes] at h
    | cons b m2t =>
      obtain ⟨bk, bv⟩ := b
      simp only [stripTimes, List.map_cons, List.cons.injEq, Prod.mk.injEq] at h
      obtain ⟨⟨hk, hvv⟩, htail⟩ := h
      subst hk
      by_cases hak : ak = k
      · simp only [setEntry, if_pos hak, stripTimes, List.map_cons, List.cons.injEq,
          Prod.mk.injEq]
        exact ⟨⟨trivial, hv⟩, htail⟩
      · simp only [setEntry, if_neg hak, stripTimes, List.map_cons, List.cons.injEq,
          Prod.mk.injEq]
        refine ⟨⟨trivial, hvv⟩, ?_⟩
        simpa [stripTimes] using ih htail

theorem stripTimes_foldl_congr {α : Type} (pv : List ℕ → ℚ)
    (c1 c2 : String → String → ℚ) (funcs : List (String × (α → Option ℤ)))
    (td : List (String × List α)) :
    ∀ m1 m2 : ResultsMatrix, stripTimes m1 = stripTimes m2 →
    stripTimes (td.foldl (fun m p => setEntry m p.1 (runPairs pv c1 p.1 p.2 funcs)) m1)
      = stripTimes (td.foldl (fun m p => setEntry m p.1 (runPairs pv c2 p.1 p.2 funcs)) m2) := by
  induction td with
  | nil => exact fun m1 m2 h => h
  | cons p rest ih =>
    intro m1 m2 h
    simp only [List.foldl_cons]
    exact ih _ _ (stripTimes_setEntry_congr p.1 h (runPairs_noTime pv c1 c2 p.1 p.2 funcs))

theorem dictKeys_perm_dedup (l : List ℤ) : (dictKeys l).Perm l.dedup :=
  (List.perm_ext_iff_of_nodup (nodup_dictKeys l) l.nodup_dedup).mpr
    (fun a => (mem_dictKeys l a).trans List.mem_dedup.symm)

/-! ### The claims -/

/-- C1: the spec claims that on an empty dataset the orchestrator produces a
`TestResult` with `collisions = 0`, `collision_rate = 0`, `chi2 = 0`,
`p_value = 0`, the collision rate being *defined as 0* when the dataset size
is 0.  The code instead computes `collision_rate = collisions / len(data)`
(main.py line 109) with `len(data) = 0`, raising `ZeroDivisionError`; the
pair-level handler (line 126) catches it and skips the pair.  This theorem
evaluates the embedding at the failing input (the empty dataset, which the
repository's own `generate_edge_cases` deliberately produces as
`test_data/empty.txt`): the pair computation aborts (`none`) and the stored
entry for the file is empty — no `TestResult` at all is produced, for any
hash function, although the run itself completes without propagating an
exception. -/
theorem c1_empty_dataset_eval :
    computePair (fun _ => (0 : ℚ)) 0 ([] : List ℕ) (fun _ => some 0) = none ∧
    test_functions (fun _ => (0 : ℚ)) (fun _ _ => 0) []
      [("empty.txt", ([] : List ℕ))] [("MD5", fun _ => some 0)]
      = ([("empty.txt", [])], none) :=
  ⟨rfl, by decide⟩

/-- C2: the collision analysis counts occurrences into a frequency table;
`unique_hashes` is the number of distinct codes (first conjunct, stated
against Mathlib's `dedup` as the independent notion of "distinct"), and on
the spec's scenario — dataset `["a","a","a"]` hashed by string length, i.e.
code sequence `[1,1,1]` — it yields `unique_hashes = 1`, `collisions = 2`
and `collision_rate = 2/3`. -/
theorem c2_collision_analysis (pv : List ℕ → ℚ) (t : ℚ) :
    (∀ hashes : List ℤ, (hash_counts hashes).length = hashes.dedup.length) ∧
    computePair pv t ["a", "a", "a"] (fun s => some (s.length : ℤ)) = some
      { time := t, collisions := 2, collision_rate := 2 / 3, unique_hashes := 1,
        chi2 := 0, p_value := pv [3], hash_counts := [(1, 3)] } := by
  constructor
  · intro hashes
    rw [hash_counts, List.length_map]
    exact (dictKeys_perm_dedup hashes).length_eq
  · rw [computePair_of_ne_nil _ _ _ _ (by simp)]
    have hmap : (["a", "a", "a"].map fun x =>
        ((fun s => some ((s.length : ℤ))) x).getD 0) = [1, 1, 1] := by decide
    rw [hmap]
    have hhc : hash_counts [1, 1, 1] = [(1, 3)] := by decide
    have hcc : collisionCount [1, 1, 1] = 2 := by decide
    have hlen : (["a", "a", "a"] : List String).length = 3 := rfl
    rw [hhc, hcc, hlen]
    simp only [Option.some.injEq, TestResult.mk.injEq]
    norm_num [test_uniformity, chi2stat]

/-- C3: whenever a (dataset, function) pair completes with a stored
`TestResult`, the total redundant occurrences plus the number of distinct
hash codes equals the dataset size: `collisions + unique_hashes = dataset_size`. -/
theorem c3_collisions_plus_unique {α : Type} (pv : List ℕ → ℚ) (t : ℚ)
    (data : List α) (f : α → Option ℤ) (r : TestResult)
    (h : computePair pv t data f = some r) :
    r.collisions + r.unique_hashes = data.length := by
  obtain ⟨hc, hu⟩ := computePair_some_eq h
  rw [hc, hu, collisionCount_add_length, List.length_map]

/-- C3 witness: a concrete run on the one-element dataset `[5]`. -/
theorem c3_witness :
    computePair (fun _ => (0 : ℚ)) 0 [(5 : ℕ)] (fun n => some (n : ℤ)) = some
      { time := 0, collisions := 0, collision_rate := 0, unique_hashes := 1,
        chi2 := 0, p_value := 0, hash_counts := [(5, 1)] } ∧
    (0 : ℕ) + 1 = [(5 : ℕ)].length := by
  have h : computePair (fun _ => (0 : ℚ)) 0 [(5 : ℕ)] (fun n => some (n : ℤ)) = some
      { time := 0, collisions := 0, collision_rate := 0, unique_hashes := 1,
        chi2 := 0, p_value := 0, hash_counts := [(5, 1)] } := by
    rw [computePair_of_ne_nil _ _ _ _ (by simp)]
    have hmap : (List.map (fun x : ℕ => (some (x : ℤ)).getD 0) [5]) = [5] := by decide
    rw [hmap]
    have hhc : hash_counts [5] = [(5, 1)] := by decide
    have hcc : collisionCount [5] = 0 := by decide
    rw [hhc, hcc]
    simp only [Option.some.injEq, TestResult.mk.injEq]
    norm_num [test_uniformity, chi2stat]
  exact ⟨h, c3_collisions_plus_unique _ _ _ _ _ h⟩

/-- C4: an element whose hashing raises is replaced by the sentinel code `0`
and processing continues: for every non-empty dataset the pair completes with
a `TestResult` (it is not skipped), and that result is exactly the one
obtained by hashing with the total function that returns `0` wherever the
original function failed. -/
theorem c4_sentinel_substitution {α : Type} (pv : List ℕ → ℚ) (t : ℚ)
    (data : List α) (f : α → Option ℤ) (h : data ≠ []) :
    ∃ r, computePair pv t data f = some r ∧
      computePair pv t data (fun x => some ((f x).getD 0)) = some r := by
  refine ⟨_, computePair_of_ne_nil pv t data f h, ?_⟩
  rw [computePair_of_ne_nil pv t data _ h]
  rfl

/-- C4 witness: dataset `[1, 2, 3]` with a hash function that raises on the
element `2` and succeeds on the others. -/
theorem c4_witness :
    ([(1 : ℕ), 2, 3] : List ℕ) ≠ [] ∧
    ∃ r, computePair (fun _ => (0 : ℚ)) 0 [(1 : ℕ), 2, 3]
        (fun n => if n = 2 then none else some (n : ℤ)) = some r ∧
      computePair (fun _ => (0 : ℚ)) 0 [(1 : ℕ), 2, 3]
        (fun x => some (((fun n : ℕ => if n = 2 then none else some ((n : ℤ))) x).getD 0))
        = some r :=
  ⟨by decide, c4_sentinel_substitution _ _ _ _ (by decide)⟩

/-- C5: the run never aborts: for every dataset present in the (non-empty)
test data, `test_functions` finishes with no error and stores an entry for
that file; within that entry every hash function whose pair-level computation
succeeded has exactly one stored `TestResult` (and it is the computed one),
while a function whose pair-level computation failed is skipped — it has no
stored result — without affecting the others. -/
theorem c5_pair_isolation {α : Type} (pv : List ℕ → ℚ) (clock : String → String → ℚ)
    (st : ResultsMatrix) (td : List (String × List α))
    (funcs : List (String × (α → Option ℤ))) (fn : String) (data : List α)
    (hndt : (td.map Prod.fst).Nodup) (hndf : (funcs.map Prod.fst).Nodup)
    (hmem : (fn, data) ∈ td) :
    (test_functions pv clock st td funcs).2 = none ∧
    ∃ entry, getEntry (test_functions pv clock st td funcs).1 fn = some entry ∧
      (∀ (name : String) (f : α → Option ℤ) (r : TestResult), (name, f) ∈ funcs →
        computePair pv (clock fn name) data f = some r →
        entry.filter (fun p => p.1 = name) = [(name, r)]) ∧
      (∀ (name : String) (f : α → Option ℤ), (name, f) ∈ funcs →
        computePair pv (clock fn name) data f = none →
        entry.filter (fun p => p.1 = name) = []) := by
  have hne : ¬ (td.isEmpty = true) := by
    simpa [List.isEmpty_iff] using List.ne_nil_of_mem hmem
  refine ⟨by simp [test_functions, if_neg hne], runPairs pv clock fn data funcs, ?_, ?_, ?_⟩
  · simp only [test_functions, if_neg hne]
    exact getEntry_foldl_mem pv clock funcs td st fn data hndt hmem
  · exact fun name f r hf hs => runPairs_filter_some pv clock fn data funcs name f r hndf hf hs
  · exact fun name f hf hn => runPairs_filter_none pv clock fn data funcs name f hndf hf hn

/-- C5 witness: one file with a one-element dataset and one total hash
function. -/
theorem c5_witness :
    (([("a.txt", [(1 : ℕ)])] : List (String × List ℕ)).map Prod.fst).Nodup ∧
    (([("h", fun n : ℕ => some ((n : ℤ)))].map Prod.fst).Nodup) ∧
    ("a.txt", [(1 : ℕ)]) ∈ ([("a.txt", [(1 : ℕ)])] : List (String × List ℕ)) ∧
    (test_functions (fun _ => (0 : ℚ)) (fun _ _ => 0) []
      [("a.txt", [(1 : ℕ)])] [("h", fun n => some (n : ℤ))]).2 = none ∧
    ∃ entry, getEntry (test_functions (fun _ => (0 : ℚ)) (fun _ _ => 0) []
        [("a.txt", [(1 : ℕ)])] [("h", fun n => some (n : ℤ))]).1 "a.txt" = some entry ∧
      (∀ (name : String) (f : ℕ → Option ℤ) (r : TestResult),
        (name, f) ∈ [("h", fun n : ℕ => some ((n : ℤ)))] →
        computePair (fun _ => (0 : ℚ)) ((fun _ _ => (0 : ℚ)) "a.txt" name) [(1 : ℕ)] f = some r →
        entry.filter (fun p => p.1 = name) = [(name, r)]) ∧
      (∀ (name : String) (f : ℕ → Option ℤ),
        (name, f) ∈ [("h", fun n : ℕ => some ((n : ℤ)))] →
        computePair (fun _ => (0 : ℚ)) ((fun _ _ => (0 : ℚ)) "a.txt" name) [(1 : ℕ)] f = none →
        entry.filter (fun p => p.1 = name) = []) :=
  ⟨by decide, by decide, by decide,
    c5_pair_isolation (fun _ => (0 : ℚ)) (fun _ _ => 0) [] [("a.txt", [(1 : ℕ)])]
      [("h", fun n => some (n : ℤ))] "a.txt" [(1 : ℕ)]
      (by decide) (by decide) (by decide)⟩

/-- C6: the uniformity test on an empty frequency list returns `(0, 0)`
instead of raising or dividing by a zero expectation. -/
theorem c6_uniformity_empty (pv : List ℕ → ℚ) : test_uniformity pv [] = (0, 0) := rfl

/-- C7 counterexample: on a frequency list with a single occupied bucket
(all elements collide to one code) the chi-square statistic computed by the
code is `0` — the observed count equals the mean-occupancy expectation
exactly — not a statistic reflecting total deviation from uniformity, and
hence no correspondingly low p-value either. -/
theorem c7_counterexample : (test_uniformity (fun _ => (0 : ℚ)) [3]).1 = 0 := by
  norm_num [test_uniformity, chi2stat]

/-- C7 amended: the uniformity test does compute the chi-square statistic
against the mean occupancy `sum / number of occupied buckets`, but for a
single occupied bucket the observed count *is* the expectation, so the
returned statistic is `0` (no measured deviation); the p-value is scipy's
output on that degenerate zero-degrees-of-freedom input, abstracted as
`pv [n]`. -/
theorem c7_single_bucket (pv : List ℕ → ℚ) (n : ℕ) (hn : n ≠ 0) :
    test_uniformity pv [n]
      = (chi2stat ((([n] : List ℕ).sum : ℚ) / (([n] : List ℕ).length : ℚ)) [n], pv [n])
    ∧ test_uniformity pv [n] = (0, pv [n]) := by
  have hq : ((n : ℚ)) ≠ 0 := Nat.cast_ne_zero.mpr hn
  constructor
  · simp [test_uniformity, hq]
  · simp [test_uniformity, chi2stat, hq]

/-- C7 witness: the single-bucket frequency list `[2]`. -/
theorem c7_witness :
    (2 : ℕ) ≠ 0 ∧
    (test_uniformity (fun _ => (1 : ℚ)) [2]
      = (chi2stat ((([2] : List ℕ).sum : ℚ) / (([2] : List ℕ).length : ℚ)) [2], 1)
    ∧ test_uniformity (fun _ => (1 : ℚ)) [2] = (0, 1)) :=
  ⟨by decide, c7_single_bucket (fun _ => (1 : ℚ)) 2 (by decide)⟩

/-- C8: the benchmark is deterministic up to timing: two runs of
`test_functions` on the same datasets and (deterministic) hash functions,
differing only in the wall-clock readings, produce results matrices that
agree in every stored field except the elapsed time, and the same
error outcome. -/
theorem c8_deterministic_modulo_time {α : Type} (pv : List ℕ → ℚ)
    (c1 c2 : String → String → ℚ) (st : ResultsMatrix)
    (td : List (String × List α)) (funcs : List (String × (α → Option ℤ))) :
    stripTimes (test_functions pv c1 st td funcs).1
      = stripTimes (test_functions pv c2 st td funcs).1 ∧
    (test_functions pv c1 st td funcs).2 = (test_functions pv c2 st td funcs).2 := by
  by_cases h : td.isEmpty
  · simp [test_functions, h]
  · simp only [test_functions, if_neg h]
    exact ⟨stripTimes_foldl_congr pv c1 c2 funcs td st st rfl, trivial⟩

/-- C9: every stored `TestResult` satisfies `unique_hashes ≤ dataset size`:
there are at most as many distinct hash codes as elements. -/
theorem c9_unique_le_size {α : Type} (pv : List ℕ → ℚ) (t : ℚ)
    (data : List α) (f : α → Option ℤ) (r : TestResult)
    (h : computePair pv t data f = some r) :
    r.unique_hashes ≤ data.length := by
  obtain ⟨_, hu⟩ := computePair_some_eq h
  rw [hu]
  calc (dictKeys (data.map fun x => (f x).getD 0)).length
      ≤ (data.map fun x => (f x).getD 0).length := dictKeys_length_le _
    _ = data.length := List.length_map _ _

/-- C9 witness: a concrete run on the dataset `[7, 7]`, whose two elements
hash to one distinct code. -/
theorem c9_witness :
    computePair (fun _ => (0 : ℚ)) 0 [(7 : ℕ), 7] (fun n => some (n : ℤ)) = some
      { time := 0, collisions := 1, collision_rate := 1 / 2, unique_hashes := 1,
        chi2 := 0, p_value := 0, hash_counts := [(7, 2)] } ∧
    (1 : ℕ) ≤ [(7 : ℕ), 7].length := by
  have h : computePair (fun _ => (0 : ℚ)) 0 [(7 : ℕ), 7] (fun n => some (n : ℤ)) = some
      { time := 0, collisions := 1, collision_rate := 1 / 2, unique_hashes := 1,
        chi2 := 0, p_value := 0, hash_counts := [(7, 2)] } := by
    rw [computePair_of_ne_nil _ _ _ _ (by simp)]
    have hmap : (List.map (fun x : ℕ => (some (x : ℤ)).getD 0) [7, 7]) = [7, 7] := by decide
    rw [hmap]
    have hhc : hash_counts [7, 7] = [(7, 2)] := by decide
    have hcc : collisionCount [7, 7] = 1 := by decide
    rw [hhc, hcc]
    simp only [Option.some.injEq, TestResult.mk.injEq]
    norm_num [test_uniformity, chi2stat]
  exact ⟨h, c9_unique_le_size _ _ _ _ _ h⟩

/-- C10: if the loaded test-data collection is empty, `test_functions` raises
`ValueError` («Нет тестовых данных для проверки») before processing any pair,
and `self.results` is left exactly as it was. -/
theorem c10_no_test_data {α : Type} (pv : List ℕ → ℚ) (clock : String → String → ℚ)
    (st : ResultsMatrix) (funcs : List (String × (α → Option ℤ))) :
    test_functions pv clock st ([] : List (String × List α)) funcs
      = (st, some "Нет тестовых данных для проверки") := rfl
